import Mathlib

/-!
Verification development for the `gql-to-yup` compiler (`src/GQL2Yup.ts`).

The compiler turns a parsed GraphQL type graph (object types, unions, enums)
into a registry of runtime validators.  We shallowly embed:

* the type-reference classifier `_argType` (pure string manipulation, embedded
  over `List Char` to mirror JavaScript string slicing);
* the field compiler `_fieldToYup` and the constructor's three compilation
  passes (objects, unions, enums) into a registry;
* the behaviour of the produced validators.  The validator-execution engine
  (the external `yup` library) and the date library (`moment`) are not part of
  the repository, so their primitives are modelled from the specification's
  description of them; validation is a fuel-indexed interpreter over a
  validator syntax tree, returning `Except String Value` (the error string is
  the human-readable validation message).
-/

namespace GqlToYup

/-! ## Type classifier (`_argType`) -/

/-- Result of `_argType`: normalized base type name plus metadata. -/
structure ArgTypeRes where
  type : String
  isArray : Bool
  isRequired : Bool
  isUnknown : Bool
deriving DecidableEq, Repr

/-- `t.endsWith('!') ? t.slice(0, -1) : t`, together with the flag.
Mirrors the first required-marker strip of `_argType`. -/
def stripReq (l : List Char) : List Char × Bool :=
  if l.getLast? = some '!' then (l.dropLast, true) else (l, false)

/-- The `switch` at the end of `_argType`: maps the residual base name.
`Int`/`Float` become `number`; `Date`/`DateTime` become `Date`;
`String`/`Boolean`/`Number` are lower-cased; anything else is passed
through unchanged and flagged unknown. -/
def mapScalar (t : List Char) : List Char × Bool :=
  if t = "Int".data ∨ t = "Float".data then ("number".data, false)
  else if t = "Date".data ∨ t = "DateTime".data then ("Date".data, false)
  else if t = "String".data ∨ t = "Boolean".data ∨ t = "Number".data then
    (t.map Char.toLower, false)
  else (t, true)

/-- Tail of `_argType` shared by both branches: the second trailing
required-marker strip (`if (t.endsWith('!')) t = t.slice(0, -1)`) followed by
the scalar-name switch. -/
def finishClassify (t : List Char) (isArr isReq : Bool) : ArgTypeRes :=
  let t2 := if t.getLast? = some '!' then t.dropLast else t
  let ms := mapScalar t2
  ⟨⟨ms.1⟩, isArr, isReq, ms.2⟩

/-- Embedding of `_argType` (GQL2Yup.ts lines 144-182).  The source returns
`undefined` for an empty/undefined input; callers (`_fieldToYup`) assert
non-emptiness with `!`, so the embedding is total over the inhabited case.
`isArray` is `t.startsWith('[')` after the first strip, and the brackets are
stripped as `t.slice(1, -1)`. -/
def argType (s : String) : ArgTypeRes :=
  let p := stripReq s.data
  if p.1.head? = some '[' then finishClassify ((p.1.drop 1).dropLast) true p.2
  else finishClassify p.1 false p.2

/-- The classifier as claim C5 words it: `isArray` is the residue being
bracket-wrapped (leading `[` and trailing `]`), the rest identical. -/
def argTypeClaimed (s : String) : ArgTypeRes :=
  let p := stripReq s.data
  if p.1.head? = some '[' ∧ p.1.getLast? = some ']' then
    finishClassify ((p.1.drop 1).dropLast) true p.2
  else finishClassify p.1 false p.2

/-- GraphQL type-reference grammar: a named type, a list type, or a
non-null wrapper. -/
inductive GType where
  | named (n : List Char)
  | list (t : GType)
  | bang (t : GType)
deriving DecidableEq, Repr

/-- Rendering a type reference back to its source string. -/
def render : GType → List Char
  | .named n => n
  | .list t => '[' :: render t ++ [']']
  | .bang t => render t ++ ['!']

/-- A name is grammar-valid when nonempty and free of the marker characters. -/
def validName (n : List Char) : Bool :=
  !n.isEmpty && n.all (fun c => c ≠ '!' && c ≠ '[' && c ≠ ']')

/-- Grammar-validity of a type reference: names are valid and a non-null
wrapper is never applied twice (GraphQL forbids `T!!`). -/
def validRef : GType → Bool
  | .named n => validName n
  | .list t => validRef t
  | .bang (.bang _) => false
  | .bang t => validRef t

/-! ## Schema data model (the parsed type graph handed to the constructor) -/

/-- One field of an object type: its name and the printed type reference
(`field.type.toString()`), e.g. `"[Foo!]!"`. -/
structure FieldDef where
  name : String
  typeRef : String
deriving DecidableEq, Repr

/-- A custom object type with its ordered fields. -/
structure ObjectDef where
  name : String
  fields : List FieldDef
deriving DecidableEq, Repr

/-- A union type with the ordered names of its member object types. -/
structure UnionDef where
  name : String
  types : List String
deriving DecidableEq, Repr

/-- An enum type with its ordered declared value literals. -/
structure EnumDef where
  name : String
  values : List String
deriving DecidableEq, Repr

/-- The classified type graph produced by `_parse` (built-in and
introspection types already filtered out). -/
structure GQLSchema where
  objects : List ObjectDef
  unions : List UnionDef
  enums : List EnumDef
deriving DecidableEq, Repr

/-! ## Runtime values

Modelled from the spec: candidate values handed to a compiled validator are
JavaScript values — null, undefined, booleans, numbers, strings, native date
instances, arrays, and plain objects (ordered key/value lists).  Number and
date payloads are opaque to every claim, so they are carried as integers. -/

inductive Value where
  | vNull
  | vUndefined
  | vBool (b : Bool)
  | vNum (n : Int)
  | vStr (s : String)
  | vDate (t : Int)
  | vArr (xs : List Value)
  | vObj (kvs : List (String × Value))

/-- JavaScript truthiness (`!value` in the union test is its negation). -/
def truthy : Value → Bool
  | .vNull => false
  | .vUndefined => false
  | .vBool b => b
  | .vNum n => n ≠ 0
  | .vStr s => s ≠ ""
  | .vDate _ => true
  | .vArr _ => true
  | .vObj _ => true

/-- `value === undefined || value === null`. -/
def isNullish : Value → Bool
  | .vNull => true
  | .vUndefined => true
  | _ => false

/-! ## Date library

Modelled from the spec: the external date library (`moment`) is called with
the fixed four-format list `_dateFormats`; the resulting value `isValid()`
exactly when the string parses under at least one of the formats, and any
internal parse exception is represented by `throws`. -/

/-- The four supported date formats of `_dateFormats`. -/
inductive DateFormat where
  | iso8601
  | rfc2822
  | defaultFormat
  | defaultFormatUtc
deriving DecidableEq, Repr

/-- The `_dateFormats` list (GQL2Yup.ts lines 26-31). -/
def dateFormats : List DateFormat := [.iso8601, .rfc2822, .defaultFormat, .defaultFormatUtc]

/-- Modelled from the spec: the platform date library.  `parses f s` says the
string `s` parses under format `f`; `throws s` says constructing/validating a
date from `s` raises an internal exception. -/
structure Moment where
  parses : DateFormat → String → Bool
  throws : String → Bool

/-- `moment(value, _dateFormats).isValid()`: valid iff at least one of the
four supported formats parses the string. -/
def momentValid (M : Moment) (s : String) : Bool :=
  dateFormats.any (fun f => M.parses f s)

/-! ## Validator syntax

The shapes of validator the compiler actually builds, one constructor per
`yup` construction used by `GQL2Yup`. -/

/-- The primitive `yup` base schemas used by `_fieldToYup`. -/
inductive PrimType where
  | pstring
  | pnumber
  | pboolean
deriving DecidableEq, Repr

/-- Name of a primitive type, as it appears in a type error message. -/
def primName : PrimType → String
  | .pstring => "string"
  | .pnumber => "number"
  | .pboolean => "boolean"

inductive Validator where
  /-- `yup.string()/number()/boolean()` followed by `.nullable(!isRequired)`. -/
  | prim (p : PrimType) (nullable : Bool)
  /-- `yup.mixed()[.required()].test(dateTest).nullable(!isRequired)`;
  the required-field check is layered on exactly when `isRequired`. -/
  | dateV (isRequired : Bool)
  /-- `yup.lazy(...)` deferring a registry lookup of `name`; when the field is
  an array (`elemRequired`), the resolved entity gets `.required()`. -/
  | lazyRef (name : String) (elemRequired : Bool)
  /-- `yup.array().of(inner)`. -/
  | arrayOf (inner : Validator)
  /-- `yup.object().shape(fields)`. -/
  | objectShape (fields : List (String × Validator))
  /-- `yup.mixed().test(oneof)` over the eagerly resolved member validators;
  `names` drives the failure message. -/
  | unionOf (names : List String) (members : List Validator)
  /-- `yup.mixed().oneOf(values).label('Enum ' + name)`. -/
  | enumOf (name : String) (values : List String)

/-- The registry `_entities`; assignment prepends so that lookup (first
match) mirrors JavaScript property overwrite. -/
abbrev Registry := List (String × Validator)

/-! ## Validation messages -/

/-- Modelled from the spec: the required-field failure message. -/
def requiredMsg (path : String) : String := path ++ " is a required field"

/-- Modelled from the spec: a type mismatch failure from the external
validation library (its exact text is not relied on by any claim, only that
it differs from the required-field message). -/
def typeErrMsg (path tname : String) : String :=
  path ++ " must be a " ++ tname ++ " type"

/-- The union one-of failure message (GQL2Yup.ts line 71). -/
def unionMsg (names : List String) : String :=
  "Was not one of " ++ String.intercalate ", " names

/-- The enum failure message: label `Enum <name>` plus the external library's
one-of message listing the allowed values in declaration order. -/
def enumMsg (name : String) (values : List String) : String :=
  "Enum " ++ name ++ " must be one of the following values: " ++
    String.intercalate ", " values

/-- Model of the crash when the deferred lookup inside `yup.lazy` finds no
entity (`this._entities[type]` is `undefined` and is then used as a schema). -/
def lazyCrashMsg : String := "TypeError: undefined is not a schema"

/-! ## Field compiler (`_fieldToYup`) -/

/-- Embedding of `_fieldToYup` (GQL2Yup.ts lines 189-242): classify the type
reference, pick the base validator, fold the `.nullable(!isRequired)` wrapper
into the non-lazy bases, and wrap arrays with `yup.array().of(...)`. -/
def fieldToYup (f : FieldDef) : String × Validator :=
  let a := argType f.typeRef
  let base : Validator :=
    match a.type with
    | "boolean" => .prim .pboolean (!a.isRequired)
    | "number" => .prim .pnumber (!a.isRequired)
    | "string" => .prim .pstring (!a.isRequired)
    | "Date" => .dateV a.isRequired
    | "DateTime" => .dateV a.isRequired
    | _ => .lazyRef a.type a.isArray
  if a.isArray then (f.name, .arrayOf base) else (f.name, base)

/-! ## Entity / union / enum compilation (the constructor) -/

/-- The exclusion check of the objects pass: a field is skipped when its
qualified name `Entity.field` or its bare name is in the exclude list. -/
def excludedField (ex : List String) (otName : String) (f : FieldDef) : Bool :=
  ex.contains (otName ++ "." ++ f.name) || ex.contains f.name

/-- The shape definition accumulated for one object type: every non-excluded
field compiled by `_fieldToYup`, in field order. -/
def entityFields (ex : List String) (ot : ObjectDef) : List (String × Validator) :=
  (ot.fields.filter (fun f => !excludedField ex ot.name f)).map fieldToYup

/-- `yup.object().shape(fields)` for one object type. -/
def compileObject (ex : List String) (ot : ObjectDef) : Validator :=
  .objectShape (entityFields ex ot)

/-- The objects pass of the constructor. -/
def compileObjects (ex : List String) : List ObjectDef → Registry → Registry
  | [], reg => reg
  | ot :: rest, reg => compileObjects ex rest ((ot.name, compileObject ex ot) :: reg)

/-- `getEntity` (GQL2Yup.ts lines 99-103): lookup or an unknown-entity error
naming the requested entity. -/
def getEntity (reg : Registry) (name : String) : Except String Validator :=
  match reg.lookup name with
  | some v => .ok v
  | none => .error ("GQL2Yup: No entity '" ++ name ++ "'")

/-- Effectful map over a list, stopping at the first error (`Promise`
sequencing / `abortEarly` behaviour). -/
def mapE (f : α → Except String β) : List α → Except String (List β)
  | [] => .ok []
  | x :: xs =>
    match f x with
    | .error e => .error e
    | .ok r =>
      match mapE f xs with
      | .error e => .error e
      | .ok rs => .ok (r :: rs)

/-- The unions pass: member entities are resolved eagerly via `getEntity`
(throwing out of the constructor when one is missing), and the union
validator records the member names for its message. -/
def compileUnions : List UnionDef → Registry → Except String Registry
  | [], reg => .ok reg
  | u :: rest, reg =>
    match mapE (fun n => getEntity reg n) u.types with
    | .error e => .error e
    | .ok members => compileUnions rest ((u.name, .unionOf u.types members) :: reg)

/-- The enums pass. -/
def compileEnums : List EnumDef → Registry → Registry
  | [], reg => reg
  | e :: rest, reg => compileEnums rest ((e.name, .enumOf e.name e.values) :: reg)

/-- The whole constructor: objects, then unions, then enums. -/
def compile (s : GQLSchema) (ex : List String) : Except String Registry :=
  let reg := compileObjects ex s.objects []
  match compileUnions s.unions reg with
  | .error e => .error e
  | .ok reg2 => .ok (compileEnums s.enums reg2)

/-! ## Validation semantics

Modelled from the spec: the external validation library's
`validate(candidate)` resolves to the validated value or rejects with a
message.  Recursion is fuel-indexed because deferred (lazy) fields may
reference entities cyclically; actual runs always terminate on finite
values, so every claim is stated for sufficiently large fuel. -/

/-- Property access `kvs[k]`: the stored value, or `undefined`. -/
def objLookup (kvs : List (String × Value)) (k : String) : Value :=
  match kvs.lookup k with
  | some v => v
  | none => .vUndefined

/-- Did a validation promise resolve? -/
def isOkB : Except String Value → Bool
  | .ok _ => true
  | .error _ => false

/-- A primitive base schema with its `.nullable` flag: `undefined` passes
(no required check is ever attached to a primitive), `null` passes exactly
when nullable, a value of the primitive's type passes, anything else is a
type error. -/
def validatePrim (path : String) (p : PrimType) (nullable : Bool) :
    Value → Except String Value
  | .vUndefined => .ok .vUndefined
  | .vNull => if nullable then .ok .vNull else .error (typeErrMsg path (primName p))
  | .vStr s =>
    match p with
    | .pstring => .ok (.vStr s)
    | _ => .error (typeErrMsg path (primName p))
  | .vNum n =>
    match p with
    | .pnumber => .ok (.vNum n)
    | _ => .error (typeErrMsg path (primName p))
  | .vBool b =>
    match p with
    | .pboolean => .ok (.vBool b)
    | _ => .error (typeErrMsg path (primName p))
  | _ => .error (typeErrMsg path (primName p))

/-- The date validator: the required-field check layered first when
`isRequired`, then the custom date test of `_fieldToYup` — skip
`undefined`/`null`, accept a native date, reject non-strings, and accept a
string exactly when the date library parses it (exceptions caught as
rejection). -/
def validateDate (M : Moment) (path : String) (isRequired : Bool) (val : Value) :
    Except String Value :=
  if isRequired && isNullish val then .error (requiredMsg path)
  else
    match val with
    | .vUndefined => .ok val
    | .vNull => .ok val
    | .vDate t => .ok (.vDate t)
    | .vStr s =>
      if !M.throws s && momentValid M s then .ok (.vStr s)
      else .error "Invalid date format"
    | _ => .error "Invalid date format"

/-- `yup.mixed().oneOf(values).label(...)`: modelled from the spec as the
strict allow-list of declared enum literals; everything else rejects with the
labelled one-of message. -/
def validateEnum (name : String) (values : List String) (val : Value) :
    Except String Value :=
  match val with
  | .vStr s => if values.contains s then .ok (.vStr s) else .error (enumMsg name values)
  | _ => .error (enumMsg name values)

/-- The object cast: known shape keys are replaced by their validated
results, unknown keys pass through unchanged. -/
def mergeResults (kvs : List (String × Value)) (rs : List (String × Value)) :
    List (String × Value) :=
  kvs.map (fun kv =>
    match rs.lookup kv.1 with
    | some r => (kv.1, r)
    | none => kv)

/-- Fuel-indexed validation of a candidate value against a compiled
validator.  `path` is the field path used in messages (the entity itself is
validated at the field's name one level down). -/
def validate (M : Moment) (reg : Registry) :
    Nat → String → Validator → Value → Except String Value
  | 0, _, _, _ => .error "GQL2Yup model: out of fuel"
  | _ + 1, path, .prim p nb, val => validatePrim path p nb val
  | _ + 1, path, .dateV req, val => validateDate M path req val
  | n + 1, path, .lazyRef name er, val =>
    match reg.lookup name with
    | none => .error lazyCrashMsg
    | some v2 =>
      if er then
        if isNullish val then .error (requiredMsg path)
        else validate M reg n path v2 val
      else validate M reg n path v2 val
  | n + 1, path, .arrayOf inner, val =>
    match val with
    | .vUndefined => .ok .vUndefined
    | .vArr xs =>
      match mapE (fun x => validate M reg n path inner x) xs with
      | .error e => .error e
      | .ok rs => .ok (.vArr rs)
    | _ => .error (typeErrMsg path "array")
  | n + 1, path, .objectShape fields, val =>
    match val with
    | .vUndefined => .ok .vUndefined
    | .vObj kvs =>
      match mapE (fun nf =>
          match validate M reg n nf.1 nf.2 (objLookup kvs nf.1) with
          | .error e => .error e
          | .ok r => .ok (nf.1, r)) fields with
      | .error e => .error e
      | .ok rs => .ok (.vObj (mergeResults kvs rs))
    | _ => .error (typeErrMsg path "object")
  | n + 1, path, .unionOf names members, val =>
    if truthy val then
      if members.any (fun m => isOkB (validate M reg n path m val)) then .ok val
      else .error (unionMsg names)
    else .error (unionMsg names)
  | _ + 1, _, .enumOf name values, val => validateEnum name values val

/-! ## Lemmas about the type classifier -/

theorem stripReq_concat (l : List Char) : stripReq (l ++ ['!']) = (l, true) := by
  simp [stripReq]

theorem stripReq_no_bang {l : List Char} (h : l.getLast? ≠ some '!') :
    stripReq l = (l, false) := by
  simp [stripReq, h]

theorem validName_getLast {n : List Char} (h : validName n = true) :
    n.getLast? ≠ some '!' := by
  intro hl
  have hm : '!' ∈ n := List.mem_of_mem_getLast? hl
  simp only [validName, Bool.and_eq_true, List.all_eq_true, decide_eq_true_eq] at h
  exact (h.2 '!' hm).1.1 rfl

theorem validName_head {n : List Char} (h : validName n = true) :
    n.head? ≠ some '[' := by
  intro hl
  have hm : '[' ∈ n := by
    cases n with
    | nil => simp at hl
    | cons c cs =>
      simp only [List.head?_cons, Option.some.injEq] at hl
      exact hl ▸ List.mem_cons_self c cs
  simp only [validName, Bool.and_eq_true, List.all_eq_true, decide_eq_true_eq] at h
  exact (h.2 '[' hm).1.2 rfl

theorem getLast?_concat2 (l : List Char) (c : Char) : (l ++ [c]).getLast? = some c := by
  simp

theorem render_list_getLast (t : GType) :
    (render (.list t)).getLast? = some ']' :=
  getLast?_concat2 ('[' :: render t) ']'

theorem render_list_head (t : GType) : (render (.list t)).head? = some '[' := rfl

/-- On every grammar-valid type reference, the classifier coincides with the
claimed "bracket-wrapped" reading: a residue starting with `[` always also
ends with `]`. -/
theorem argType_eq_claimed : ∀ {g : GType}, validRef g = true →
    argType ⟨render g⟩ = argTypeClaimed ⟨render g⟩ := by
  intro g h
  cases g with
  | named n =>
    have hv : validName n = true := h
    simp only [argType, argTypeClaimed]
    rw [show render (GType.named n) = n from rfl,
      stripReq_no_bang (validName_getLast hv)]
    rw [if_neg (validName_head hv), if_neg (fun hc => validName_head hv hc.1)]
  | list t =>
    have h1 : (render (.list t)).getLast? ≠ some '!' := by
      rw [render_list_getLast]; simp
    simp only [argType, argTypeClaimed]
    rw [stripReq_no_bang h1]
    rw [if_pos (render_list_head t), if_pos ⟨render_list_head t, render_list_getLast t⟩]
  | bang t =>
    cases t with
    | named n =>
      have hv : validName n = true := h
      simp only [argType, argTypeClaimed]
      rw [show render (GType.bang (.named n)) = n ++ ['!'] from rfl, stripReq_concat]
      rw [if_neg (validName_head hv), if_neg (fun hc => validName_head hv hc.1)]
    | list t2 =>
      simp only [argType, argTypeClaimed]
      rw [show render (GType.bang (.list t2)) = render (.list t2) ++ ['!'] from rfl,
        stripReq_concat]
      rw [if_pos (render_list_head t2),
        if_pos ⟨render_list_head t2, render_list_getLast t2⟩]
    | bang t2 => simp [validRef] at h

/-- C5 (confirmed): on every type-reference string of the GraphQL grammar,
the classifier strips one trailing required-marker for `isRequired`, then
treats a bracket-wrapped residue as an array (stripping the brackets), then
strips one further trailing required-marker; `"[Foo!]!"` yields base `Foo`
with `isArray` and `isRequired`, and `"String"` yields base `string` with
neither. -/
theorem c5_type_classifier :
    (∀ g : GType, validRef g = true → argType ⟨render g⟩ = argTypeClaimed ⟨render g⟩) ∧
    argType "[Foo!]!" = ⟨"Foo", true, true, true⟩ ∧
    argType "String" = ⟨"string", false, false, false⟩ :=
  ⟨fun _ h => argType_eq_claimed h, by decide, by decide⟩

/-- Witness for C5 at the concrete reference `[Foo!]!`. -/
theorem c5_type_classifier_witness :
    validRef (GType.bang (.list (.bang (.named "Foo".data)))) = true ∧
    argType ⟨render (GType.bang (.list (.bang (.named "Foo".data))))⟩ =
      argTypeClaimed ⟨render (GType.bang (.list (.bang (.named "Foo".data))))⟩ :=
  ⟨by decide, c5_type_classifier.1 _ (by decide)⟩

/-- C8 fails as stated: `STRING` matches the primitive name `String`
case-insensitively, yet the classifier passes it through unchanged with
`isUnknown = true` instead of mapping it to `string`; the switch matches
case-sensitively. -/
theorem c8_counterexample :
    argType "STRING" = ⟨"STRING", false, false, true⟩ ∧
    (argType "STRING").type ≠ "string" ∧ (argType "STRING").isUnknown = true := by
  refine ⟨by decide, by decide, by decide⟩

/-- C8 (amended): only the exact, case-sensitive names `Int`, `Float`,
`Date`, `DateTime`, `String`, `Boolean`, `Number` are mapped (`Int`/`Float`
to `number`, `Date`/`DateTime` to `Date`, the rest lower-cased); every other
residual name — including other casings of primitive names — is passed
through unchanged with `isUnknown = true`. -/
theorem c8_scalar_mapping :
    argType "Int" = ⟨"number", false, false, false⟩ ∧
    argType "Float" = ⟨"number", false, false, false⟩ ∧
    argType "Date" = ⟨"Date", false, false, false⟩ ∧
    argType "DateTime" = ⟨"Date", false, false, false⟩ ∧
    argType "String" = ⟨"string", false, false, false⟩ ∧
    argType "Boolean" = ⟨"boolean", false, false, false⟩ ∧
    argType "Number" = ⟨"number", false, false, false⟩ ∧
    (∀ t : List Char,
      t ≠ "Int".data → t ≠ "Float".data → t ≠ "Date".data → t ≠ "DateTime".data →
      t ≠ "String".data → t ≠ "Boolean".data → t ≠ "Number".data →
      mapScalar t = (t, true)) := by
  refine ⟨by decide, by decide, by decide, by decide, by decide, by decide, by decide, ?_⟩
  intro t h1 h2 h3 h4 h5 h6 h7
  rw [mapScalar, if_neg (by tauto), if_neg (by tauto), if_neg (by tauto)]

/-- Witness for the amended C8 at the residual name `Foo`. -/
theorem c8_scalar_mapping_witness : mapScalar "Foo".data = ("Foo".data, true) :=
  c8_scalar_mapping.2.2.2.2.2.2.2 "Foo".data (by decide) (by decide) (by decide)
    (by decide) (by decide) (by decide) (by decide)

/-! ## Registry membership through the compilation passes -/

theorem compileObjects_sub (ex : List String) :
    ∀ (ots : List ObjectDef) (reg : Registry) (p : String × Validator),
      p ∈ reg → p ∈ compileObjects ex ots reg := by
  intro ots
  induction ots with
  | nil => intro reg p hp; exact hp
  | cons ot rest ih =>
    intro reg p hp
    exact ih _ p (List.mem_cons_of_mem _ hp)

theorem compileObjects_mem (ex : List String) :
    ∀ (ots : List ObjectDef) (reg : Registry) (ot : ObjectDef),
      ot ∈ ots → (ot.name, compileObject ex ot) ∈ compileObjects ex ots reg := by
  intro ots
  induction ots with
  | nil => intro reg ot h; simp at h
  | cons ot0 rest ih =>
    intro reg ot h
    rcases List.mem_cons.mp h with h0 | h0
    · subst h0
      exact compileObjects_sub ex rest _ _ (List.mem_cons_self _ _)
    · exact ih _ ot h0

theorem compileUnions_sub :
    ∀ (us : List UnionDef) (reg reg2 : Registry),
      compileUnions us reg = .ok reg2 → ∀ p ∈ reg, p ∈ reg2 := by
  intro us
  induction us with
  | nil => intro reg reg2 h p hp; cases h; exact hp
  | cons u rest ih =>
    intro reg reg2 h p hp
    rw [compileUnions] at h
    rcases hm : mapE (fun n => getEntity reg n) u.types with e | members
    · rw [hm] at h; cases h
    · rw [hm] at h
      exact ih _ _ h p (List.mem_cons_of_mem _ hp)

theorem compileUnions_mem :
    ∀ (us : List UnionDef) (reg reg2 : Registry),
      compileUnions us reg = .ok reg2 →
      ∀ u ∈ us, ∃ mems, (u.name, Validator.unionOf u.types mems) ∈ reg2 := by
  intro us
  induction us with
  | nil => intro reg reg2 h u hu; simp at hu
  | cons u0 rest ih =>
    intro reg reg2 h u hu
    rw [compileUnions] at h
    rcases hm : mapE (fun n => getEntity reg n) u0.types with e | members
    · rw [hm] at h; cases h
    · rw [hm] at h
      rcases List.mem_cons.mp hu with h0 | h0
      · subst h0
        exact ⟨members, compileUnions_sub rest _ _ h _ (List.mem_cons_self _ _)⟩
      · exact ih _ _ h u h0

theorem compileEnums_sub :
    ∀ (es : List EnumDef) (reg : Registry) (p : String × Validator),
      p ∈ reg → p ∈ compileEnums es reg := by
  intro es
  induction es with
  | nil => intro reg p hp; exact hp
  | cons e rest ih =>
    intro reg p hp
    exact ih _ p (List.mem_cons_of_mem _ hp)

theorem compileEnums_mem :
    ∀ (es : List EnumDef) (reg : Registry) (e : EnumDef),
      e ∈ es → (e.name, Validator.enumOf e.name e.values) ∈ compileEnums es reg := by
  intro es
  induction es with
  | nil => intro reg e h; simp at h
  | cons e0 rest ih =>
    intro reg e h
    rcases List.mem_cons.mp h with h0 | h0
    · subst h0
      exact compileEnums_sub rest _ _ (List.mem_cons_self _ _)
    · exact ih _ e h0

/-- Every object type's compiled shape reaches the final registry. -/
theorem compile_object_mem {s : GQLSchema} {ex : List String} {reg : Registry}
    (hc : compile s ex = .ok reg) {ot : ObjectDef} (hot : ot ∈ s.objects) :
    (ot.name, Validator.objectShape (entityFields ex ot)) ∈ reg := by
  rw [compile] at hc
  rcases hu : compileUnions s.unions (compileObjects ex s.objects []) with e | reg2
  · rw [hu] at hc; cases hc
  · rw [hu] at hc
    cases hc
    exact compileEnums_sub _ _ _
      (compileUnions_sub _ _ _ hu _ (compileObjects_mem ex s.objects [] ot hot))

/-- Every union type reaches the final registry with its member names. -/
theorem compile_union_mem {s : GQLSchema} {ex : List String} {reg : Registry}
    (hc : compile s ex = .ok reg) {u : UnionDef} (hu : u ∈ s.unions) :
    ∃ mems, (u.name, Validator.unionOf u.types mems) ∈ reg := by
  rw [compile] at hc
  rcases hcu : compileUnions s.unions (compileObjects ex s.objects []) with e | reg2
  · rw [hcu] at hc; cases hc
  · rw [hcu] at hc
    cases hc
    rcases compileUnions_mem _ _ _ hcu u hu with ⟨mems, hm⟩
    exact ⟨mems, compileEnums_sub _ _ _ hm⟩

/-- Every enum type reaches the final registry. -/
theorem compile_enum_mem {s : GQLSchema} {ex : List String} {reg : Registry}
    (hc : compile s ex = .ok reg) {e : EnumDef} (he : e ∈ s.enums) :
    (e.name, Validator.enumOf e.name e.values) ∈ reg := by
  rw [compile] at hc
  rcases hcu : compileUnions s.unions (compileObjects ex s.objects []) with er | reg2
  · rw [hcu] at hc; cases hc
  · rw [hcu] at hc
    cases hc
    exact compileEnums_mem _ _ _ he

/-! ## Claim C6: field exclusion -/

theorem fieldToYup_fst (f : FieldDef) : (fieldToYup f).1 = f.name := by
  simp only [fieldToYup]
  split <;> rfl

/-- The keys of a compiled shape are exactly the names of the non-excluded
fields. -/
theorem mem_entityFields_keys {ex : List String} {ot : ObjectDef} {k : String} :
    k ∈ (entityFields ex ot).map Prod.fst ↔
      ∃ fd ∈ ot.fields, excludedField ex ot.name fd = false ∧ fd.name = k := by
  constructor
  · intro hk
    rcases List.mem_map.mp hk with ⟨pr, hpr, hfst⟩
    rcases List.mem_map.mp hpr with ⟨fd, hfd, hfy⟩
    rcases List.mem_filter.mp hfd with ⟨hmem, hne⟩
    refine ⟨fd, hmem, ?_, ?_⟩
    · simpa using hne
    · rw [← hfst, ← hfy, fieldToYup_fst]
  · intro ⟨fd, hmem, hne, hname⟩
    refine List.mem_map.mpr ⟨fieldToYup fd, List.mem_map.mpr ⟨fd, ?_, rfl⟩, ?_⟩
    · exact List.mem_filter.mpr ⟨hmem, by simp [hne]⟩
    · rw [fieldToYup_fst]; exact hname

/-- C6 (confirmed): a bare exclude rule removes the same-named field from
every compiled entity; a qualified `Entity.field` rule removes that field
from that entity; any field matched by no rule is compiled as normal (its
`_fieldToYup` result is in the shape); and each object type's compiled
entity in the registry is exactly its non-excluded shape. -/
theorem c6_exclude :
    (∀ (ex : List String) (ot : ObjectDef) (r : String), r ∈ ex →
      r ∉ (entityFields ex ot).map Prod.fst) ∧
    (∀ (ex : List String) (ot : ObjectDef) (fd : FieldDef), fd ∈ ot.fields →
      (ot.name ++ "." ++ fd.name) ∈ ex →
      fd.name ∉ (entityFields ex ot).map Prod.fst) ∧
    (∀ (ex : List String) (ot : ObjectDef) (fd : FieldDef), fd ∈ ot.fields →
      fd.name ∉ ex → (ot.name ++ "." ++ fd.name) ∉ ex →
      fieldToYup fd ∈ entityFields ex ot) ∧
    (∀ (s : GQLSchema) (ex : List String) (reg : Registry),
      compile s ex = .ok reg → ∀ ot ∈ s.objects,
      (ot.name, Validator.objectShape (entityFields ex ot)) ∈ reg) := by
  refine ⟨?_, ?_, ?_, ?_⟩
  · intro ex ot r hr hk
    rcases mem_entityFields_keys.mp hk with ⟨fd, _, hne, hname⟩
    rw [excludedField] at hne
    simp only [Bool.or_eq_false_iff] at hne
    have : ex.contains fd.name = false := hne.2
    rw [hname] at this
    simp [List.elem_iff] at this
    exact this hr
  · intro ex ot fd _ hq hk
    rcases mem_entityFields_keys.mp hk with ⟨fd2, _, hne, hname⟩
    rw [excludedField] at hne
    simp only [Bool.or_eq_false_iff] at hne
    have : ex.contains (ot.name ++ "." ++ fd2.name) = false := hne.1
    rw [hname] at this
    simp [List.elem_iff] at this
    exact this hq
  · intro ex ot fd hmem hb hq
    refine List.mem_map.mpr ⟨fd, List.mem_filter.mpr ⟨hmem, ?_⟩, rfl⟩
    simp [excludedField, List.elem_iff, hb, hq]
  · intro s ex reg hc ot hot
    exact compile_object_mem hc hot

/-- Witness for C6 on a two-entity schema with a qualified rule. -/
theorem c6_exclude_witness :
    ("Foo.exclude" : String) ∈ ["Foo.exclude"] ∧
    "exclude" ∉ (entityFields ["Foo.exclude"]
      ⟨"Foo", [⟨"exclude", "String!"⟩, ⟨"require1", "String!"⟩]⟩).map Prod.fst ∧
    fieldToYup ⟨"exclude", "String!"⟩ ∈ entityFields ["Foo.exclude"]
      ⟨"Bar", [⟨"exclude", "String!"⟩, ⟨"require2", "String!"⟩]⟩ := by
  refine ⟨by decide, ?_, ?_⟩
  · exact c6_exclude.2.1 ["Foo.exclude"]
      ⟨"Foo", [⟨"exclude", "String!"⟩, ⟨"require1", "String!"⟩]⟩
      ⟨"exclude", "String!"⟩ (by decide) (by decide)
  · exact c6_exclude.2.2.1 ["Foo.exclude"]
      ⟨"Bar", [⟨"exclude", "String!"⟩, ⟨"require2", "String!"⟩]⟩
      ⟨"exclude", "String!"⟩ (by decide) (by decide) (by decide)

/-! ## Claim C7: enums -/

/-- A date library instance for concrete runs: nothing parses, nothing
throws.  Enum/union/primitive behaviour is independent of it. -/
def mzero : Moment := ⟨fun _ _ => false, fun _ => false⟩

/-- C7 (confirmed): every compiled enum validates each declared literal to
itself, and rejects any other value with the message naming the enum and
enumerating the declared values in declaration order. -/
theorem c7_enum :
    (∀ (s : GQLSchema) (ex : List String) (reg : Registry),
      compile s ex = .ok reg → ∀ e ∈ s.enums,
      (e.name, Validator.enumOf e.name e.values) ∈ reg) ∧
    (∀ (M : Moment) (reg : Registry) (n : Nat) (path name : String)
      (vals : List String) (s2 : String), s2 ∈ vals →
      validate M reg (n + 1) path (.enumOf name vals) (.vStr s2) = .ok (.vStr s2)) ∧
    (∀ (M : Moment) (reg : Registry) (n : Nat) (path name : String)
      (vals : List String) (val : Value), (∀ s2 ∈ vals, val ≠ .vStr s2) →
      validate M reg (n + 1) path (.enumOf name vals) val =
        .error ("Enum " ++ name ++ " must be one of the following values: " ++
          String.intercalate ", " vals)) := by
  refine ⟨?_, ?_, ?_⟩
  · intro s ex reg hc e he
    exact compile_enum_mem hc he
  · intro M reg n path name vals s2 hs
    simp [validate, validateEnum, List.elem_iff, hs]
  · intro M reg n path name vals val hs
    rcases val with _ | _ | b | i | s2 | t | xs | kvs <;>
      simp [validate, validateEnum, enumMsg]
    intro hmem
    exact (hs s2 hmem rfl).elim

/-- Witness for C7: `enum Test` rejects `wrong` with the exact message. -/
theorem c7_enum_witness :
    validate mzero [] 1 "" (.enumOf "Test" ["value1", "value2"]) (.vStr "wrong") =
      .error ("Enum " ++ "Test" ++ " must be one of the following values: " ++
        String.intercalate ", " ["value1", "value2"]) :=
  c7_enum.2.2 mzero [] 0 "" "Test" ["value1", "value2"] (.vStr "wrong")
    (by intro s2 hs2 h; injection h with h2; subst h2; revert hs2; decide)

/-! ## Claim C9: unknown entities -/

/-- C9 (confirmed): an unknown field type never fails construction (only the
union pass can throw); a deferred lookup that misses fails at validation
time; and `getEntity` on a never-compiled name errors with a message
containing the requested name. -/
theorem c9_unknown :
    (∀ (s : GQLSchema) (ex : List String), s.unions = [] →
      compile s ex = .ok (compileEnums s.enums (compileObjects ex s.objects []))) ∧
    (∀ (M : Moment) (reg : Registry) (n : Nat) (path name : String) (er : Bool)
      (val : Value), reg.lookup name = none →
      validate M reg (n + 1) path (.lazyRef name er) val = .error lazyCrashMsg) ∧
    (∀ (reg : Registry) (name : String), reg.lookup name = none →
      getEntity reg name = .error ("GQL2Yup: No entity '" ++ name ++ "'") ∧
      ∃ pre post, "GQL2Yup: No entity '" ++ name ++ "'" = pre ++ name ++ post) := by
  refine ⟨?_, ?_, ?_⟩
  · intro s ex h
    rw [compile, h]
    rfl
  · intro M reg n path name er val h
    simp [validate, h]
  · intro reg name h
    refine ⟨by simp [getEntity, h], "GQL2Yup: No entity '", "'", rfl⟩

/-- Witness for C9: a schema whose only field type `Missing` is never
compiled constructs fine; the deferred lookup and `getEntity` both fail. -/
theorem c9_unknown_witness :
    compile ⟨[⟨"Test", [⟨"test", "Missing"⟩]⟩], [], []⟩ [] =
      .ok (compileEnums []
        (compileObjects [] [⟨"Test", [⟨"test", "Missing"⟩]⟩] [])) ∧
    validate mzero [] 1 "" (.lazyRef "Missing" false) (.vObj []) = .error lazyCrashMsg ∧
    getEntity [] "Missing" = .error ("GQL2Yup: No entity '" ++ "Missing" ++ "'") :=
  ⟨c9_unknown.1 ⟨[⟨"Test", [⟨"test", "Missing"⟩]⟩], [], []⟩ [] rfl,
   c9_unknown.2.1 mzero [] 0 "" "Missing" false (.vObj []) rfl,
   (c9_unknown.2.2 [] "Missing" rfl).1⟩

/-! ## Claims C2 and C10: requiredness and nullability of scalar fields -/

/-- The four primitive GraphQL scalars and their compiled base schemas. -/
def scalarPrims : List (String × PrimType) :=
  [("String", .pstring), ("Boolean", .pboolean), ("Int", .pnumber), ("Float", .pnumber)]

/-- A type error is never the required-field message. -/
theorem typeErr_ne_required (p : String) (pp : PrimType) :
    typeErrMsg p (primName pp) ≠ requiredMsg p := by
  intro h
  have hl := congrArg String.length h
  simp only [typeErrMsg, requiredMsg, String.length_append] at hl
  cases pp <;> simp only [primName] at hl <;>
    rw [show (" must be a ").length = 11 from rfl, show (" type").length = 5 from rfl,
      show (" is a required field").length = 20 from rfl] at hl <;>
    first
      | rw [show ("string").length = 6 from rfl] at hl; omega
      | rw [show ("number").length = 6 from rfl] at hl; omega
      | rw [show ("boolean").length = 7 from rfl] at hl; omega

/-- C2 fails as stated: for a field `test: String!` (type reference ending in
the required marker) the compiled entity accepts an instance with the field
entirely absent, instead of failing with `test is a required field`. -/
theorem c2_counterexample :
    (argType "String!").isRequired = true ∧
    compile ⟨[⟨"Test", [⟨"test", "String!"⟩]⟩], [], []⟩ [] =
      .ok [("Test", .objectShape [("test", .prim .pstring false)])] ∧
    getEntity [("Test", .objectShape [("test", .prim .pstring false)])] "Test" =
      .ok (.objectShape [("test", .prim .pstring false)]) ∧
    validate mzero [("Test", .objectShape [("test", .prim .pstring false)])] 2 ""
      (.objectShape [("test", .prim .pstring false)]) (.vObj []) = .ok (.vObj []) :=
  ⟨by decide, rfl, rfl, rfl⟩

/-- C2 (amended): the stated requiredness behaviour holds for scalar,
non-array fields as follows.  A required `Date`/`DateTime` field rejects
`null` and absent values with `<field> is a required field`; a required
primitive field rejects an explicit `null` with a type error (not the
required message) but accepts an absent field; a non-required scalar field
accepts `null` and `undefined` unchanged.  (Custom-typed lazy fields and
array fields receive no nullable wrapper, so none of this applies to them.) -/
theorem c2_requiredness (M : Moment) (reg : Registry) (n : Nat) (name : String) :
    (fieldToYup ⟨name, "Date!"⟩ = (name, .dateV true) ∧
     fieldToYup ⟨name, "DateTime!"⟩ = (name, .dateV true) ∧
     validate M reg (n + 1) name (.dateV true) .vNull = .error (requiredMsg name) ∧
     validate M reg (n + 1) name (.dateV true) .vUndefined = .error (requiredMsg name)) ∧
    (∀ pr ∈ scalarPrims,
      fieldToYup ⟨name, pr.1 ++ "!"⟩ = (name, .prim pr.2 false) ∧
      validate M reg (n + 1) name (.prim pr.2 false) .vUndefined = .ok .vUndefined ∧
      validate M reg (n + 1) name (.prim pr.2 false) .vNull =
        .error (typeErrMsg name (primName pr.2)) ∧
      typeErrMsg name (primName pr.2) ≠ requiredMsg name) ∧
    (∀ pr ∈ scalarPrims,
      fieldToYup ⟨name, pr.1⟩ = (name, .prim pr.2 true) ∧
      validate M reg (n + 1) name (.prim pr.2 true) .vNull = .ok .vNull ∧
      validate M reg (n + 1) name (.prim pr.2 true) .vUndefined = .ok .vUndefined) ∧
    (fieldToYup ⟨name, "Date"⟩ = (name, .dateV false) ∧
     validate M reg (n + 1) name (.dateV false) .vNull = .ok .vNull ∧
     validate M reg (n + 1) name (.dateV false) .vUndefined = .ok .vUndefined) := by
  refine ⟨⟨rfl, rfl, ?_, ?_⟩, ?_, ?_, ⟨rfl, ?_, ?_⟩⟩
  · simp [validate, validateDate, isNullish]
  · simp [validate, validateDate, isNullish]
  · intro pr hpr
    rcases pr with ⟨s, p⟩
    simp only [scalarPrims, List.mem_cons, List.not_mem_nil, or_false,
      Prod.mk.injEq] at hpr
    rcases hpr with ⟨rfl, rfl⟩ | ⟨rfl, rfl⟩ | ⟨rfl, rfl⟩ | ⟨rfl, rfl⟩ <;>
      exact ⟨rfl, by simp [validate, validatePrim], by simp [validate, validatePrim],
        typeErr_ne_required name _⟩
  · intro pr hpr
    rcases pr with ⟨s, p⟩
    simp only [scalarPrims, List.mem_cons, List.not_mem_nil, or_false,
      Prod.mk.injEq] at hpr
    rcases hpr with ⟨rfl, rfl⟩ | ⟨rfl, rfl⟩ | ⟨rfl, rfl⟩ | ⟨rfl, rfl⟩ <;>
      exact ⟨rfl, by simp [validate, validatePrim], by simp [validate, validatePrim]⟩
  · simp [validate, validateDate, isNullish]
  · simp [validate, validateDate, isNullish]

/-- Witness for the amended C2 at the `String` scalar. -/
theorem c2_requiredness_witness :
    fieldToYup ⟨"test", "String" ++ "!"⟩ = ("test", .prim .pstring false) ∧
    validate mzero [] 1 "test" (.prim .pstring false) .vUndefined = .ok .vUndefined :=
  ⟨((c2_requiredness mzero [] 0 "test").2.1 ("String", .pstring) (by decide)).1,
   ((c2_requiredness mzero [] 0 "test").2.1 ("String", .pstring) (by decide)).2.1⟩

/-- C10 (confirmed): primitive scalar fields never get a required check: an
instance with the field absent validates even when the type reference ends
in `!`; the `!` only switches off `nullable`, rejecting an explicit `null`
with a type error. -/
theorem c10_primitive_no_required (M : Moment) (reg : Registry) (n : Nat)
    (name : String) :
    ∀ pr ∈ scalarPrims,
      fieldToYup ⟨name, pr.1 ++ "!"⟩ = (name, .prim pr.2 false) ∧
      fieldToYup ⟨name, pr.1⟩ = (name, .prim pr.2 true) ∧
      validate M reg (n + 2) "" (.objectShape [(name, .prim pr.2 false)])
        (.vObj []) = .ok (.vObj []) ∧
      validate M reg (n + 2) "" (.objectShape [(name, .prim pr.2 true)])
        (.vObj []) = .ok (.vObj []) ∧
      validate M reg (n + 1) name (.prim pr.2 false) .vNull =
        .error (typeErrMsg name (primName pr.2)) := by
  intro pr hpr
  rcases pr with ⟨s, p⟩
  simp only [scalarPrims, List.mem_cons, List.not_mem_nil, or_false,
    Prod.mk.injEq] at hpr
  rcases hpr with ⟨rfl, rfl⟩ | ⟨rfl, rfl⟩ | ⟨rfl, rfl⟩ | ⟨rfl, rfl⟩ <;>
    exact ⟨rfl, rfl,
      by simp [validate, validatePrim, mapE, objLookup, mergeResults],
      by simp [validate, validatePrim, mapE, objLookup, mergeResults],
      by simp [validate, validatePrim]⟩

/-- Witness for C10 at a required `Int` field. -/
theorem c10_primitive_no_required_witness :
    fieldToYup ⟨"test", "Int" ++ "!"⟩ = ("test", .prim .pnumber false) ∧
    validate mzero [] 2 "" (.objectShape [("test", .prim .pnumber false)])
      (.vObj []) = .ok (.vObj []) :=
  ⟨(c10_primitive_no_required mzero [] 0 "test" ("Int", .pnumber) (by decide)).1,
   (c10_primitive_no_required mzero [] 0 "test" ("Int", .pnumber) (by decide)).2.2.1⟩

/-! ## Claim C4: the date validator -/

/-- C4 (confirmed): `Date`/`DateTime` fields compile to the date validator;
it accepts any native date instance, accepts `undefined`/`null` in its date
test (requiredness being the separately layered check), accepts a string
exactly when the date library parses it under at least one of the four
supported formats (an internal parse exception counting as not parsing), and
rejects every other value type and every unparseable string with
`Invalid date format`. -/
theorem c4_date (M : Moment) (reg : Registry) (n : Nat) (path name : String) :
    (fieldToYup ⟨name, "Date"⟩ = (name, .dateV false) ∧
     fieldToYup ⟨name, "DateTime"⟩ = (name, .dateV false) ∧
     fieldToYup ⟨name, "Date!"⟩ = (name, .dateV true)) ∧
    (∀ (req : Bool) (t : Int),
      validate M reg (n + 1) path (.dateV req) (.vDate t) = .ok (.vDate t)) ∧
    (validate M reg (n + 1) path (.dateV false) .vNull = .ok .vNull ∧
     validate M reg (n + 1) path (.dateV false) .vUndefined = .ok .vUndefined) ∧
    (∀ s : String,
      validate M reg (n + 1) path (.dateV false) (.vStr s) = .ok (.vStr s) ↔
        (M.throws s = false ∧ ∃ f ∈ dateFormats, M.parses f s = true)) ∧
    (∀ s : String,
      M.throws s = true ∨ (∀ f ∈ dateFormats, M.parses f s = false) →
      validate M reg (n + 1) path (.dateV false) (.vStr s) =
        .error "Invalid date format") ∧
    (∀ i : Int, validate M reg (n + 1) path (.dateV false) (.vNum i) =
      .error "Invalid date format") ∧
    (∀ b : Bool, validate M reg (n + 1) path (.dateV false) (.vBool b) =
      .error "Invalid date format") ∧
    (∀ xs, validate M reg (n + 1) path (.dateV false) (.vArr xs) =
      .error "Invalid date format") ∧
    (∀ kvs, validate M reg (n + 1) path (.dateV false) (.vObj kvs) =
      .error "Invalid date format") ∧
    (validate M reg (n + 1) path (.dateV true) .vNull = .error (requiredMsg path) ∧
     validate M reg (n + 1) path (.dateV true) .vUndefined = .error (requiredMsg path)) := by
  have hstr : ∀ s : String,
      validate M reg (n + 1) path (.dateV false) (.vStr s) =
        if !M.throws s && momentValid M s then .ok (.vStr s)
        else .error "Invalid date format" := by
    intro s
    simp [validate, validateDate]
  refine ⟨⟨rfl, rfl, rfl⟩, ?_, ⟨?_, ?_⟩, ?_, ?_, ?_, ?_, ?_, ?_, ?_, ?_⟩
  · intro req t
    cases req <;> simp [validate, validateDate, isNullish]
  · simp [validate, validateDate, isNullish]
  · simp [validate, validateDate, isNullish]
  · intro s
    rw [hstr s]
    cases hth : M.throws s <;> cases hmv : momentValid M s <;>
      simp only [Bool.not_true, Bool.not_false, Bool.true_and, Bool.false_and,
        Bool.and_true, Bool.and_false, if_true, if_false, reduceIte]
    · constructor
      · intro h
        cases h
      · intro ⟨_, f, hf, hp⟩
        have : momentValid M s = true := by
          rw [momentValid, List.any_eq_true]
          exact ⟨f, hf, hp⟩
        rw [hmv] at this
        cases this
    · constructor
      · intro _
        constructor
        · trivial
        · rw [momentValid, List.any_eq_true] at hmv
          exact hmv
      · intro _
        trivial
    · constructor
      · intro h
        cases h
      · intro ⟨h, _⟩
        cases h
    · constructor
      · intro h
        cases h
      · intro ⟨h, _⟩
        cases h
  · intro s h
    rw [hstr s]
    rcases h with h | h
    · rw [h]
      rfl
    · have : momentValid M s = false := by
        rw [momentValid, List.any_eq_false]
        intro f hf
        simp [h f hf]
      rw [this, Bool.and_false, if_neg (by simp)]
  · intro i
    simp [validate, validateDate, isNullish]
  · intro b
    simp [validate, validateDate, isNullish]
  · intro xs
    simp [validate, validateDate, isNullish]
  · intro kvs
    simp [validate, validateDate, isNullish]
  · simp [validate, validateDate, isNullish, requiredMsg]
  · simp [validate, validateDate, isNullish, requiredMsg]

/-- Witness for C4: the unparseable string `some date` is rejected with the
fixed message. -/
theorem c4_date_witness :
    validate mzero [] 1 "" (.dateV false) (.vStr "some date") =
      .error "Invalid date format" :=
  (c4_date mzero [] 0 "" "test").2.2.2.2.1 "some date" (Or.inr (fun _ _ => rfl))

/-! ## Claim C3: unions -/

/-- An object-shape validator rejects everything that is neither `undefined`
nor an object. -/
theorem objectShape_rejects (M : Moment) (reg : Registry) (path : String)
    (k : Nat) (flds : List (String × Validator)) (val : Value)
    (h1 : val ≠ .vUndefined) (h2 : ∀ kvs, val ≠ .vObj kvs) :
    isOkB (validate M reg k path (.objectShape flds) val) = false := by
  cases k with
  | zero => rfl
  | succ k2 =>
    cases val <;>
      first
        | exact (h1 rfl).elim
        | exact (h2 _ rfl).elim
        | simp [validate, isOkB]

/-- C3 (confirmed): a compiled union validates a candidate successfully
exactly when it is neither `null` nor `undefined` and at least one member
entity's validator accepts it; member rejections are absorbed (any failure
of the union carries the union's own message, which lists all member type
names); and compilation stores a union validator for every union of the
schema under its member names. -/
theorem c3_union (M : Moment) (reg : Registry) (n : Nat) (path : String)
    (names : List String) (members : List Validator) (val : Value)
    (hm : ∀ m ∈ members, ∃ flds, m = Validator.objectShape flds) :
    (validate M reg (n + 1) path (.unionOf names members) val = .ok val ↔
      (val ≠ .vNull ∧ val ≠ .vUndefined ∧
        ∃ m ∈ members, isOkB (validate M reg n path m val) = true)) ∧
    (∀ e, validate M reg (n + 1) path (.unionOf names members) val = .error e →
      e = "Was not one of " ++ String.intercalate ", " names) ∧
    (∀ (s : GQLSchema) (ex : List String) (reg2 : Registry),
      compile s ex = .ok reg2 → ∀ u ∈ s.unions,
      ∃ mems, (u.name, Validator.unionOf u.types mems) ∈ reg2) := by
  have hv : validate M reg (n + 1) path (.unionOf names members) val =
      if truthy val then
        if members.any (fun m => isOkB (validate M reg n path m val)) then .ok val
        else .error (unionMsg names)
      else .error (unionMsg names) := by
    simp [validate]
  refine ⟨?_, ?_, ?_⟩
  · rw [hv]
    cases htr : truthy val with
    | true =>
      rw [if_pos rfl]
      cases hany : members.any (fun m => isOkB (validate M reg n path m val)) with
      | true =>
        rw [if_pos rfl]
        refine iff_of_true rfl ⟨?_, ?_, List.any_eq_true.mp hany⟩
        · intro h
          subst h
          cases htr
        · intro h
          subst h
          cases htr
      | false =>
        rw [if_neg (by simp)]
        refine iff_of_false (by intro h; cases h) ?_
        intro ⟨_, _, m, hmem, hok⟩
        have : members.any (fun m => isOkB (validate M reg n path m val)) = true :=
          List.any_eq_true.mpr ⟨m, hmem, hok⟩
        rw [hany] at this
        cases this
    | false =>
      rw [if_neg (by simp)]
      refine iff_of_false (by intro h; cases h) ?_
      intro ⟨hnn, hnu, m, hmem, hok⟩
      rcases hm m hmem with ⟨flds, rfl⟩
      have hrej : isOkB (validate M reg n path (.objectShape flds) val) = false := by
        refine objectShape_rejects M reg path n flds val hnu ?_
        intro kvs hk
        subst hk
        cases htr
      rw [hok] at hrej
      cases hrej
  · rw [hv]
    intro e he
    have hmsg : unionMsg names =
        "Was not one of " ++ String.intercalate ", " names := rfl
    cases htr : truthy val with
    | true =>
      rw [htr, if_pos rfl] at he
      cases hany : members.any (fun m => isOkB (validate M reg n path m val)) with
      | true =>
        rw [hany, if_pos rfl] at he
        cases he
      | false =>
        rw [hany, if_neg (by simp)] at he
        injection he with he2
        rw [← he2, hmsg]
    | false =>
      rw [htr, if_neg (by simp)] at he
      injection he with he2
      rw [← he2, hmsg]
  · intro s ex reg2 hc u hu
    exact compile_union_mem hc hu

/-- Witness for C3 on a two-member union. -/
theorem c3_union_witness :
    validate mzero [] 2 "" (.unionOf ["Custom1", "Custom2"]
        [.objectShape [("foo", .prim .pstring false)],
         .objectShape [("bar", .prim .pstring false)]])
        (.vObj [("foo", .vStr "x")]) = .ok (.vObj [("foo", .vStr "x")]) ↔
      ((.vObj [("foo", .vStr "x")] : Value) ≠ .vNull ∧
        (.vObj [("foo", .vStr "x")] : Value) ≠ .vUndefined ∧
        ∃ m ∈ [Validator.objectShape [("foo", .prim .pstring false)],
               Validator.objectShape [("bar", .prim .pstring false)]],
          isOkB (validate mzero [] 1 "" m (.vObj [("foo", .vStr "x")])) = true) :=
  (c3_union mzero [] 1 "" ["Custom1", "Custom2"]
    [.objectShape [("foo", .prim .pstring false)],
     .objectShape [("bar", .prim .pstring false)]]
    (.vObj [("foo", .vStr "x")])
    (by
      intro m hmem
      rcases List.mem_cons.mp hmem with rfl | hmem2
      · exact ⟨_, rfl⟩
      · rcases List.mem_cons.mp hmem2 with rfl | hmem3
        · exact ⟨_, rfl⟩
        · simp at hmem3)).1

/-! ## Claim C1: round-trip validation of well-typed instances -/

/-- A fully-populated, well-typed instance of a compiled validator: each
scalar field holds a value of its scalar type, date fields hold native
dates, arrays are element-wise well-typed, deferred references resolve in
the registry to a validator the value is well-typed for, objects carry
exactly well-typed values under distinct keys for every shape field, unions
hold a (truthy) well-typed instance of some member, and enums hold one of
their declared literals. -/
inductive WTV (reg : Registry) : Validator → Value → Prop where
  | strC (nb : Bool) (s : String) : WTV reg (.prim .pstring nb) (.vStr s)
  | numC (nb : Bool) (i : Int) : WTV reg (.prim .pnumber nb) (.vNum i)
  | boolC (nb : Bool) (b : Bool) : WTV reg (.prim .pboolean nb) (.vBool b)
  | dateC (req : Bool) (t : Int) : WTV reg (.dateV req) (.vDate t)
  | arrC (inner : Validator) (xs : List Value)
      (h : ∀ x ∈ xs, WTV reg inner x) : WTV reg (.arrayOf inner) (.vArr xs)
  | lazyC (name : String) (er : Bool) (v2 : Validator) (val : Value)
      (hl : reg.lookup name = some v2) (h : WTV reg v2 val) :
      WTV reg (.lazyRef name er) val
  | objC (fields : List (String × Validator)) (kvs : List (String × Value))
      (hnd : (kvs.map Prod.fst).Nodup)
      (h : ∀ nf ∈ fields, WTV reg nf.2 (objLookup kvs nf.1)) :
      WTV reg (.objectShape fields) (.vObj kvs)
  | unionC (names : List String) (members : List Validator) (m : Validator)
      (val : Value) (hmem : m ∈ members) (htr : truthy val = true)
      (h : WTV reg m val) : WTV reg (.unionOf names members) val
  | enumC (name : String) (vals : List String) (s : String)
      (hs : s ∈ vals) : WTV reg (.enumOf name vals) (.vStr s)

theorem wtv_not_nullish {reg : Registry} {v : Validator} {val : Value}
    (h : WTV reg v val) : val ≠ .vNull ∧ val ≠ .vUndefined := by
  induction h with
  | strC nb s => exact ⟨nofun, nofun⟩
  | numC nb i => exact ⟨nofun, nofun⟩
  | boolC nb b => exact ⟨nofun, nofun⟩
  | dateC req t => exact ⟨nofun, nofun⟩
  | arrC inner xs h ih => exact ⟨nofun, nofun⟩
  | lazyC name er v2 val hl h ih => exact ih
  | objC fields kvs hnd h ih => exact ⟨nofun, nofun⟩
  | unionC names members m val hmem htr h ih => exact ih
  | enumC name vals s hs => exact ⟨nofun, nofun⟩

theorem isNullish_eq_false {val : Value} (h1 : val ≠ .vNull)
    (h2 : val ≠ .vUndefined) : isNullish val = false := by
  cases val <;> first | exact (h1 rfl).elim | exact (h2 rfl).elim | rfl

/-- A uniform fuel bound for finitely many eventually-true properties. -/
theorem exists_uniform_bound {α : Type _} (P : α → Nat → Prop) :
    ∀ l : List α, (∀ x ∈ l, ∃ N, ∀ m, N ≤ m → P x m) →
      ∃ N, ∀ m, N ≤ m → ∀ x ∈ l, P x m := by
  intro l
  induction l with
  | nil => exact fun _ => ⟨0, fun m _ x hx => by simp at hx⟩
  | cons a t ih =>
    intro h
    rcases h a (List.mem_cons_self a t) with ⟨Na, hNa⟩
    rcases ih (fun x hx => h x (List.mem_cons_of_mem a hx)) with ⟨Nt, hNt⟩
    refine ⟨max Na Nt, fun m hm x hx => ?_⟩
    rcases List.mem_cons.mp hx with rfl | hx2
    · exact hNa m (le_trans (le_max_left _ _) hm)
    · exact hNt m (le_trans (le_max_right _ _) hm) x hx2

theorem mapE_ok_map {α β : Type _} (f : α → Except String β) (g : α → β) :
    ∀ l : List α, (∀ x ∈ l, f x = .ok (g x)) → mapE f l = .ok (l.map g) := by
  intro l
  induction l with
  | nil => exact fun _ => rfl
  | cons a t ih =>
    intro h
    simp only [mapE, h a (List.mem_cons_self a t),
      ih (fun x hx => h x (List.mem_cons_of_mem a hx)), List.map_cons]

theorem mapE_ok_id {α : Type _} (f : α → Except String α) (l : List α)
    (h : ∀ x ∈ l, f x = .ok x) : mapE f l = .ok l := by
  rw [mapE_ok_map f id l h]
  simp

theorem lookup_eq_of_nodup :
    ∀ (kvs : List (String × Value)) (k : String) (w : Value),
      (kvs.map Prod.fst).Nodup → (k, w) ∈ kvs → kvs.lookup k = some w := by
  intro kvs
  induction kvs with
  | nil => intro k w _ h; simp at h
  | cons hd t ih =>
    rcases hd with ⟨k0, w0⟩
    intro k w hnd hmem
    rw [List.map_cons, List.nodup_cons] at hnd
    rcases List.mem_cons.mp hmem with heq | hmem2
    · injection heq with h1 h2
      subst h1
      subst h2
      simp [List.lookup]
    · have hne : (k == k0) = false := by
        rw [beq_eq_false_iff_ne]
        intro he
        subst he
        exact hnd.1 (List.mem_map.mpr ⟨(k, w), hmem2, rfl⟩)
      simp only [List.lookup, hne]
      exact ih k w hnd.2 hmem2

theorem lookup_map_key (g : String → Value) :
    ∀ (fields : List (String × Validator)) (k : String) (r : Value),
      (fields.map (fun nf => (nf.1, g nf.1))).lookup k = some r → r = g k := by
  intro fields
  induction fields with
  | nil => intro k r h; simp [List.lookup] at h
  | cons nf t ih =>
    intro k r h
    simp only [List.map_cons, List.lookup] at h
    cases hbe : (k == nf.1) with
    | true =>
      rw [hbe] at h
      simp only at h
      injection h with h2
      rw [← h2, eq_of_beq hbe]
    | false =>
      rw [hbe] at h
      simp only at h
      exact ih k r h

/-- Validating every shape field of a well-keyed object and merging back
reproduces the object. -/
theorem mergeResults_self (kvs : List (String × Value))
    (fields : List (String × Validator))
    (hnd : (kvs.map Prod.fst).Nodup) :
    mergeResults kvs (fields.map (fun nf => (nf.1, objLookup kvs nf.1))) = kvs := by
  rw [mergeResults]
  have hpt : ∀ kv ∈ kvs, (fun kv : String × Value =>
      match (fields.map (fun nf => (nf.1, objLookup kvs nf.1))).lookup kv.1 with
      | some r => (kv.1, r)
      | none => kv) kv = id kv := by
    intro kv hkv
    simp only [id]
    cases hlk : (fields.map (fun nf => (nf.1, objLookup kvs nf.1))).lookup kv.1 with
    | none => rfl
    | some r =>
      have hr : r = objLookup kvs kv.1 := lookup_map_key _ fields kv.1 r hlk
      have hmem2 : (kv.1, kv.2) ∈ kvs := by
        rw [Prod.mk.eta]
        exact hkv
      have hol : objLookup kvs kv.1 = kv.2 := by
        rw [objLookup, lookup_eq_of_nodup kvs kv.1 kv.2 hnd hmem2]
      rw [hr, hol]
  rw [List.map_congr_left hpt, List.map_id]

/-- Core of C1: a well-typed instance validates, with enough fuel, to itself. -/
theorem wtv_validate (M : Moment) {reg : Registry} {v : Validator} {val : Value}
    (h : WTV reg v val) :
    ∃ N, ∀ m, N ≤ m → ∀ path, validate M reg m path v val = .ok val := by
  induction h with
  | strC nb s =>
    refine ⟨1, fun m hm path => ?_⟩
    cases m with
    | zero => omega
    | succ k => simp [validate, validatePrim]
  | numC nb i =>
    refine ⟨1, fun m hm path => ?_⟩
    cases m with
    | zero => omega
    | succ k => simp [validate, validatePrim]
  | boolC nb b =>
    refine ⟨1, fun m hm path => ?_⟩
    cases m with
    | zero => omega
    | succ k => simp [validate, validatePrim]
  | dateC req t =>
    refine ⟨1, fun m hm path => ?_⟩
    cases m with
    | zero => omega
    | succ k => cases req <;> simp [validate, validateDate, isNullish]
  | enumC name vals s hs =>
    refine ⟨1, fun m hm path => ?_⟩
    cases m with
    | zero => omega
    | succ k => simp [validate, validateEnum, List.elem_iff, hs]
  | lazyC name er v2 val hl h ih =>
    rcases ih with ⟨N0, hN⟩
    refine ⟨N0 + 1, fun m hm path => ?_⟩
    cases m with
    | zero => omega
    | succ k =>
      have hk : N0 ≤ k := by omega
      have hnn := wtv_not_nullish h
      simp only [validate, hl]
      cases er with
      | true =>
        rw [if_pos rfl, if_neg (by rw [isNullish_eq_false hnn.1 hnn.2]; simp)]
        exact hN k hk path
      | false =>
        rw [if_neg (by simp)]
        exact hN k hk path
  | arrC inner xs h ih =>
    rcases exists_uniform_bound
        (fun x m => ∀ path, validate M reg m path inner x = .ok x) xs ih with
      ⟨N0, hN⟩
    refine ⟨N0 + 1, fun m hm path => ?_⟩
    cases m with
    | zero => omega
    | succ k =>
      have hk : N0 ≤ k := by omega
      simp only [validate]
      rw [mapE_ok_id (fun x => validate M reg k path inner x) xs
        (fun x hx => hN k hk x hx path)]
  | objC fields kvs hnd h ih =>
    rcases exists_uniform_bound
        (fun nf m => ∀ path,
          validate M reg m path nf.2 (objLookup kvs nf.1) = .ok (objLookup kvs nf.1))
        fields ih with ⟨N0, hN⟩
    refine ⟨N0 + 1, fun m hm path => ?_⟩
    cases m with
    | zero => omega
    | succ k =>
      have hk : N0 ≤ k := by omega
      simp only [validate]
      rw [mapE_ok_map
        (fun nf : String × Validator =>
          match validate M reg k nf.1 nf.2 (objLookup kvs nf.1) with
          | .error e => .error e
          | .ok r => .ok (nf.1, r))
        (fun nf => (nf.1, objLookup kvs nf.1)) fields
        (fun nf hnf => by simp only [hN k hk nf hnf nf.1])]
      simp only [mergeResults_self kvs fields hnd]
  | unionC names members m2 val hmem htr h ih =>
    rcases ih with ⟨N0, hN⟩
    refine ⟨N0 + 1, fun m hm path => ?_⟩
    cases m with
    | zero => omega
    | succ k =>
      have hk : N0 ≤ k := by omega
      have hany : members.any
          (fun mv => isOkB (validate M reg k path mv val)) = true :=
        List.any_eq_true.mpr ⟨m2, hmem, by rw [hN k hk path]; rfl⟩
      simp only [validate, htr, hany]
      rfl

/-- C1 (confirmed): retrieving any compiled object type's validator and
validating a fully-populated, well-typed instance succeeds (for sufficient
fuel) and resolves to a value structurally equal to the input. -/
theorem c1_round_trip (M : Moment) (s : GQLSchema) (ex : List String)
    (reg : Registry) (T : String) (v : Validator) (val : Value)
    (hc : compile s ex = .ok reg) (hg : getEntity reg T = .ok v)
    (hw : WTV reg v val) :
    ∃ N, ∀ m, N ≤ m → validate M reg m "" v val = .ok val := by
  rcases wtv_validate M hw with ⟨N, hN⟩
  exact ⟨N, fun m hm => hN m hm ""⟩

/-- Witness for C1 on `type Person { name: String! }` with a fully-populated
instance. -/
theorem c1_round_trip_witness :
    ∃ N, ∀ m, N ≤ m →
      validate mzero [("Person", .objectShape [("name", .prim .pstring false)])]
        m "" (.objectShape [("name", .prim .pstring false)])
        (.vObj [("name", .vStr "Alice")]) = .ok (.vObj [("name", .vStr "Alice")]) := by
  refine c1_round_trip mzero ⟨[⟨"Person", [⟨"name", "String!"⟩]⟩], [], []⟩ []
    [("Person", .objectShape [("name", .prim .pstring false)])] "Person"
    (.objectShape [("name", .prim .pstring false)])
    (.vObj [("name", .vStr "Alice")]) rfl rfl ?_
  refine WTV.objC _ _ (by simp) ?_
  intro nf hnf
  rcases List.mem_cons.mp hnf with rfl | hnf2
  · exact WTV.strC false "Alice"
  · simp at hnf2

end GqlToYup
